import Mathlib

/-!
# Shallow embedding of the VirMet `wolfpack` pipeline

This file embeds the read-classification logic of `src/virmet/wolfpack.py`:
the quality-filter stage (`hunter`), the decontamination stage (`victor`) and
its driving loop, the viral search stage (`viral_blast`) with its best-HSP
merge, and the partition stage (`cleaning_up`).  External collaborators
(bwa, seqtk, prinseq, blastn) are modelled by their outputs: lists of FASTQ
records, lists of SAM read identifiers, and lists of blast hit rows.
-/

/-- A FASTQ record as produced by `FastqGeneralIterator`: the title line
(without the leading `@`), the sequence and the quality string. -/
structure FastqRecord where
  title : String
  seq : String
  qual : String
deriving DecidableEq, Repr

/-- Python's `title.split()[0]`: drop leading whitespace, then take the first
maximal run of non-whitespace characters.  (`str.split()` with no argument
splits on whitespace runs and drops empty fields; on an all-whitespace title
Python would raise, here the empty string is returned.) -/
def firstToken (s : String) : String :=
  (((s.toList.dropWhile Char.isWhitespace).takeWhile (fun c => !c.isWhitespace)).asString)

/-- `blast_cov_threshold = 75.` in `wolfpack.py`. -/
def blast_cov_threshold : ℚ := 75

/-- `blast_ident_threshold = 75.` in `wolfpack.py`. -/
def blast_ident_threshold : ℚ := 75

/-- The set of mapped read identifiers built by `victor` from the SAM body:
`set(grep -v "^@" sam | cut -f 1)` with the empty string removed
(`mapped_reads.remove('')`).  The input is the list of first SAM fields. -/
def mapped_reads (samIds : List String) : Finset String :=
  samIds.toFinset.erase ""

/-- The residual-writing loop of `victor`: every record of the input read set
whose first title token is *not* in the mapped set is written to the clean
output file (`if title.split()[0] not in mapped_reads`). -/
def victor (mapped : Finset String) (reads : List FastqRecord) : List FastqRecord :=
  reads.filter (fun r => decide (firstToken r.title ∉ mapped))

/-- The identifier list of a read set (first whitespace-delimited token of each
title), in file order. -/
def readIds (reads : List FastqRecord) : List String :=
  reads.map (fun r => firstToken r.title)

section FilterLemmas

variable {α : Type} {β : Type}

/-- A filter by membership in a finset contained in the identifiers of a
duplicate-free list keeps exactly `s.card` elements. -/
theorem length_filter_mem_eq_card {l : List String} {s : Finset String}
    (hnd : l.Nodup) (hsub : s ⊆ l.toFinset) :
    (l.filter (fun x => decide (x ∈ s))).length = s.card := by
  have hfin : (l.filter (fun x => decide (x ∈ s))).toFinset = s := by
    ext x
    simp only [List.mem_toFinset, List.mem_filter, decide_eq_true_eq]
    constructor
    · rintro ⟨-, hx⟩; exact hx
    · intro hx
      exact ⟨List.mem_toFinset.mp (hsub hx), hx⟩
  have hndf : (l.filter (fun x => decide (x ∈ s))).Nodup := hnd.filter _
  calc (l.filter (fun x => decide (x ∈ s))).length
      = (l.filter (fun x => decide (x ∈ s))).toFinset.card :=
        (List.toFinset_card_of_nodup hndf).symm
    _ = s.card := by rw [hfin]

/-- Filtering a mapped list by finset membership is mapping the filter of the
original list. -/
theorem filter_mem_map (f : α → String) (l : List α) (s : Finset String) :
    (l.map f).filter (fun x => decide (x ∈ s))
      = (l.filter (fun a => decide (f a ∈ s))).map f := by
  induction l with
  | nil => rfl
  | cons a l ih =>
      by_cases h : f a ∈ s
      · simp [List.filter, h, ih]
      · simp [List.filter, h, ih]

/-- Counting elements of a mapped list that land in a finset, phrased on the
original list. -/
theorem length_filter_map_mem {f : α → String} {l : List α} {s : Finset String}
    (hnd : (l.map f).Nodup) (hsub : s ⊆ (l.map f).toFinset) :
    (l.filter (fun a => decide (f a ∈ s))).length = s.card := by
  have hmap := filter_mem_map f l s
  have := length_filter_mem_eq_card hnd hsub
  rw [hmap, List.length_map] at this
  exact this

/-- Splitting a list by a boolean predicate preserves the total length. -/
theorem length_filter_add_length_filter_not (p : α → Bool) (l : List α) :
    (l.filter p).length + (l.filter (fun a => !(p a))).length = l.length := by
  induction l with
  | nil => rfl
  | cons a l ih =>
      by_cases h : p a
      · simp [List.filter, h, ← ih]; omega
      · simp [List.filter, h, ← ih]; omega

end FilterLemmas

/-- C1: one `victor` round on a read set with unique identifiers writes
`|input| - |mapped|` residual records — residual count plus the
`matching_<reference>` ledger count equals the input count — and no read
identifier occurs both in the residual output and in the mapped set. -/
theorem victor_partition (reads : List FastqRecord) (samIds : List String)
    (hnd : (readIds reads).Nodup)
    (hsub : mapped_reads samIds ⊆ (readIds reads).toFinset) :
    (victor (mapped_reads samIds) reads).length + (mapped_reads samIds).card
      = reads.length
    ∧ ∀ r ∈ victor (mapped_reads samIds) reads,
        firstToken r.title ∉ mapped_reads samIds := by
  constructor
  · have hsplit := length_filter_add_length_filter_not
      (fun r : FastqRecord => decide (firstToken r.title ∈ mapped_reads samIds)) reads
    have hcnt : (reads.filter
        (fun r => decide (firstToken r.title ∈ mapped_reads samIds))).length
        = (mapped_reads samIds).card :=
      length_filter_map_mem (f := fun r : FastqRecord => firstToken r.title) hnd hsub
    have hvic : victor (mapped_reads samIds) reads
        = reads.filter (fun r =>
            !(decide (firstToken r.title ∈ mapped_reads samIds))) := by
      unfold victor
      apply List.filter_congr
      intro r _
      simp
    rw [hvic]
    omega
  · intro r hr
    have := List.of_mem_filter hr
    simpa using this

/-- Witness for `victor_partition` on a two-read set with one mapped read. -/
theorem victor_partition_witness :
    (victor (mapped_reads ["r1", ""])
        [⟨"r1 len=10", "ACGT", "IIII"⟩, ⟨"r2 len=10", "CCCC", "IIII"⟩]).length
      + (mapped_reads ["r1", ""]).card = 2 :=
  (victor_partition [⟨"r1 len=10", "ACGT", "IIII"⟩, ⟨"r2 len=10", "CCCC", "IIII"⟩]
    ["r1", ""] (by decide) (by decide)).1

/-- One row of a blast hit table in the pipeline's output format
(`-outfmt '6 qseqid sseqid sscinames stitle pident qcovs score length mismatch
gapopen qstart qend sstart send staxids'`).  The fields the pipeline compares
numerically (`pident`, `qcovs`) are rationals; the rest are carried along. -/
structure HitRow where
  qseqid : String
  sseqid : String
  sscinames : String
  stitle : String
  pident : ℚ
  qcovs : ℚ
  score : ℚ
  length : ℕ
  mismatch : ℕ
  gapopen : ℕ
  qstart : ℕ
  qend : ℕ
  sstart : ℕ
  send : ℕ
  staxids : String
deriving DecidableEq, Repr

/-- The best-HSP loop of `viral_blast` over the concatenated per-shard hit
tables: the state `q` is the `qseqid` of the most recently written row
(initially the empty string); a row is written iff its `qseqid` differs from
`q`, and only then is `q` updated. -/
def mergeLoop : String → List HitRow → List HitRow
  | _, [] => []
  | q, r :: rs => if r.qseqid ≠ q then r :: mergeLoop r.qseqid rs else mergeLoop q rs

/-- The contents of `unique.tsv` (header aside): the merge loop started with
`qseqid = ''` on the concatenation of the per-shard tables `tmp_0.tsv`, ...,
`tmp_{n-1}.tsv`. -/
def unique_tsv (shards : List (List HitRow)) : List HitRow :=
  mergeLoop "" shards.flatten

/-- Merge as the spec words it: keep, for each distinct query identifier, the
first row encountered, dropping every later row whose identifier was already
seen. -/
def specMerge (seen : Finset String) : List HitRow → List HitRow
  | [] => []
  | r :: rs =>
      if r.qseqid ∈ seen then specMerge seen rs
      else r :: specMerge (insert r.qseqid seen) rs

/-- The query identifier heading a block of hit rows (`""` for an empty
block). -/
def headId : List HitRow → String
  | [] => ""
  | r :: _ => r.qseqid

/-- `mergeLoop` skips a run of rows whose identifier equals the state. -/
theorem mergeLoop_skip_run (q : String) (b rest : List HitRow)
    (h : ∀ r ∈ b, r.qseqid = q) :
    mergeLoop q (b ++ rest) = mergeLoop q rest := by
  induction b with
  | nil => rfl
  | cons r b ih =>
      have hr : r.qseqid = q := h r (List.mem_cons_self r b)
      simp only [List.cons_append, mergeLoop, hr, ne_eq, not_true_eq_false,
        if_false, ite_not, if_pos]
      exact ih (fun r' hr' => h r' (List.mem_cons_of_mem r hr'))

/-- `specMerge` skips a run of rows whose identifiers were already seen. -/
theorem specMerge_skip_run (seen : Finset String) (b rest : List HitRow)
    (h : ∀ r ∈ b, r.qseqid ∈ seen) :
    specMerge seen (b ++ rest) = specMerge seen rest := by
  induction b with
  | nil => rfl
  | cons r b ih =>
      have hr : r.qseqid ∈ seen := h r (List.mem_cons_self r b)
      simp only [List.cons_append, specMerge, hr, if_pos]
      exact ih (fun r' hr' => h r' (List.mem_cons_of_mem r hr'))

/-- On a block-grouped table whose block identifiers avoid the current state
and the seen set, the code's merge loop agrees with the spec's
first-occurrence merge. -/
theorem mergeLoop_eq_specMerge_aux (blocks : List (List HitRow)) :
    ∀ (q : String) (seen : Finset String),
    (∀ b ∈ blocks, b ≠ []) →
    (∀ b ∈ blocks, ∀ r ∈ b, r.qseqid = headId b) →
    (blocks.map headId).Nodup →
    (∀ b ∈ blocks, headId b ≠ q) →
    (∀ b ∈ blocks, headId b ∉ seen) →
    mergeLoop q blocks.flatten = specMerge seen blocks.flatten := by
  induction blocks with
  | nil => intro q seen _ _ _ _ _; rfl
  | cons b bs ih =>
      intro q seen hne hsame hnodup hq hseen
      obtain ⟨r, b', rfl⟩ : ∃ r b', b = r :: b' :=
        match b, hne b (List.mem_cons_self b bs) with
        | r :: b', _ => ⟨r, b', rfl⟩
      have hid : headId (r :: b') = r.qseqid := rfl
      have hrq : r.qseqid ≠ q := by
        have := hq _ (List.mem_cons_self _ bs); rwa [hid] at this
      have hrseen : r.qseqid ∉ seen := by
        have := hseen _ (List.mem_cons_self _ bs); rwa [hid] at this
      have hb' : ∀ r' ∈ b', r'.qseqid = r.qseqid := by
        intro r' hr'
        have := hsame _ (List.mem_cons_self _ bs) r' (List.mem_cons_of_mem r hr')
        rwa [hid] at this
      have hjoin : ((r :: b') :: bs).flatten = r :: (b' ++ bs.flatten) := by
        simp
      have hleft : mergeLoop q ((r :: b') :: bs).flatten
          = r :: mergeLoop r.qseqid bs.flatten := by
        rw [hjoin]
        show (if r.qseqid ≠ q then r :: mergeLoop r.qseqid (b' ++ bs.flatten)
            else mergeLoop q (b' ++ bs.flatten)) = _
        rw [if_pos hrq, mergeLoop_skip_run r.qseqid b' bs.flatten hb']
      have hright : specMerge seen ((r :: b') :: bs).flatten
          = r :: specMerge (insert r.qseqid seen) bs.flatten := by
        rw [hjoin]
        show (if r.qseqid ∈ seen then specMerge seen (b' ++ bs.flatten)
            else r :: specMerge (insert r.qseqid seen) (b' ++ bs.flatten)) = _
        rw [if_neg hrseen, specMerge_skip_run (insert r.qseqid seen) b' bs.flatten
          (fun r' hr' => by rw [hb' r' hr']; exact Finset.mem_insert_self _ _)]
      rw [hleft, hright]
      have hnotmem : r.qseqid ∉ bs.map headId := by
        have := hnodup
        rw [List.map_cons, List.nodup_cons] at this
        simpa [hid] using this.1
      refine congrArg (r :: ·) (ih r.qseqid (insert r.qseqid seen)
        (fun b hb => hne b (List.mem_cons_of_mem _ hb))
        (fun b hb => hsame b (List.mem_cons_of_mem _ hb))
        (by rw [List.map_cons, List.nodup_cons] at hnodup; exact hnodup.2)
        ?_ ?_)
      · intro b hb hbq
        exact hnotmem (hbq ▸ List.mem_map_of_mem headId hb)
      · intro b hb hbseen
        rcases Finset.mem_insert.mp hbseen with h | h
        · exact hnotmem (h ▸ List.mem_map_of_mem headId hb)
        · exact hseen b (List.mem_cons_of_mem _ hb) h

/-- Identifiers retained by `specMerge` avoid the seen set. -/
theorem specMerge_not_mem_seen :
    ∀ (l : List HitRow) (seen : Finset String),
    ∀ x ∈ (specMerge seen l).map HitRow.qseqid, x ∉ seen := by
  intro l
  induction l with
  | nil => intro seen x hx; simp [specMerge] at hx
  | cons r rs ih =>
      intro seen x hx
      by_cases h : r.qseqid ∈ seen
      · exact ih seen x (by simpa [specMerge, h] using hx)
      · simp only [specMerge, h, if_neg, not_false_eq_true, List.map_cons,
          List.mem_cons] at hx
        rcases hx with rfl | hx
        · exact h
        · intro hxs
          exact ih (insert r.qseqid seen) x hx (Finset.mem_insert_of_mem hxs)

/-- `specMerge` keeps at most one row per query identifier. -/
theorem specMerge_ids_nodup :
    ∀ (l : List HitRow) (seen : Finset String),
    ((specMerge seen l).map HitRow.qseqid).Nodup := by
  intro l
  induction l with
  | nil => intro seen; simp [specMerge]
  | cons r rs ih =>
      intro seen
      by_cases h : r.qseqid ∈ seen
      · simpa [specMerge, h] using ih seen
      · simp only [specMerge, h, if_neg, not_false_eq_true, List.map_cons,
          List.nodup_cons]
        refine ⟨fun hmem => ?_, ih (insert r.qseqid seen)⟩
        exact specMerge_not_mem_seen rs (insert r.qseqid seen) r.qseqid hmem
          (Finset.mem_insert_self _ _)

/-- A hit row with the fields the pipeline inspects; the coordinate fields are
fixed representative values. -/
def mkHit (q sci : String) (pid qc sc : ℚ) : HitRow :=
  ⟨q, "gi|1|ref", sci, sci, pid, qc, sc, 50, 0, 0, 1, 50, 1, 50, "10239"⟩

/-- C2 (counterexample): on a shard whose duplicate query identifiers are not
contiguous, the merge loop retains two rows for identifier `A`, so the merged
table does not have one row per distinct identifier. -/
theorem viral_blast_merge_counterexample :
    (unique_tsv [[mkHit "A" "virA" 90 90 200, mkHit "B" "virB" 80 80 150,
        mkHit "A" "virA" 70 70 100]]).map HitRow.qseqid = ["A", "B", "A"]
    ∧ ¬ ((unique_tsv [[mkHit "A" "virA" 90 90 200, mkHit "B" "virB" 80 80 150,
        mkHit "A" "virA" 70 70 100]]).map HitRow.qseqid).Nodup := by
  constructor
  · decide
  · decide

/-- C2 (amended): the merge loop keeps the first row of each maximal run of
equal query identifiers; when the concatenated shard stream is grouped into
one contiguous block per identifier (as the per-query-sorted collaborator
output yields), no identifier being empty, the merged `unique.tsv` equals the
spec's first-occurrence merge and retains exactly one row per distinct
identifier. -/
theorem viral_blast_merge_grouped (shards blocks : List (List HitRow))
    (hdecomp : shards.flatten = blocks.flatten)
    (hne : ∀ b ∈ blocks, b ≠ [])
    (hsame : ∀ b ∈ blocks, ∀ r ∈ b, r.qseqid = headId b)
    (hnodup : (blocks.map headId).Nodup)
    (hnz : ∀ b ∈ blocks, headId b ≠ "") :
    unique_tsv shards = specMerge ∅ shards.flatten
    ∧ ((unique_tsv shards).map HitRow.qseqid).Nodup := by
  have hmain : unique_tsv shards = specMerge ∅ shards.flatten := by
    unfold unique_tsv
    rw [hdecomp]
    exact mergeLoop_eq_specMerge_aux blocks "" ∅ hne hsame hnodup hnz
      (fun b _ => Finset.not_mem_empty _)
  exact ⟨hmain, hmain ▸ (hdecomp ▸ specMerge_ids_nodup blocks.flatten ∅)⟩

/-- Witness for `viral_blast_merge_grouped`: two shards, identifier `A`'s rows
contiguous, merged output has one row per identifier. -/
theorem viral_blast_merge_grouped_witness :
    unique_tsv [[mkHit "A" "virA" 90 90 200, mkHit "A" "virA" 70 70 100],
        [mkHit "B" "virB" 80 80 150]]
      = specMerge ∅ ([[mkHit "A" "virA" 90 90 200, mkHit "A" "virA" 70 70 100],
        [mkHit "B" "virB" 80 80 150]] : List (List HitRow)).flatten
    ∧ ((unique_tsv [[mkHit "A" "virA" 90 90 200, mkHit "A" "virA" 70 70 100],
        [mkHit "B" "virB" 80 80 150]]).map HitRow.qseqid).Nodup :=
  viral_blast_merge_grouped
    [[mkHit "A" "virA" 90 90 200, mkHit "A" "virA" 70 70 100],
        [mkHit "B" "virB" 80 80 150]]
    [[mkHit "A" "virA" 90 90 200, mkHit "A" "virA" 70 70 100],
        [mkHit "B" "virB" 80 80 150]]
    rfl (by decide) (by decide) (by decide) (by decide)

/-- The row filter of `cleaning_up`:
`df[(df.qcovs > blast_cov_threshold) & (df.pident > blast_ident_threshold)]`. -/
def cleaningUpGood (r : HitRow) : Bool :=
  decide (blast_cov_threshold < r.qcovs) && decide (blast_ident_threshold < r.pident)

/-- The row filter of `viral_blast`:
`hits[(hits.pident > blast_ident_threshold) & (hits.qcovs > blast_cov_threshold)]`. -/
def viralBlastGood (r : HitRow) : Bool :=
  decide (blast_ident_threshold < r.pident) && decide (blast_cov_threshold < r.qcovs)

/-- `good_hits` of `viral_blast`: the merged hit rows passing the identity and
coverage thresholds; `viral_reads` in the ledger is its row count. -/
def good_hits (rows : List HitRow) : List HitRow :=
  rows.filter viralBlastGood

/-- `viral_ids` of `cleaning_up`: the set of query identifiers of the rows of
`unique.tsv` passing the coverage and identity thresholds. -/
def viral_ids (rows : List HitRow) : Finset String :=
  ((rows.filter cleaningUpGood).map HitRow.qseqid).toFinset

/-- The viral output stream of `cleaning_up`: records of the final residual
read set whose first title token is in `viral_ids`. -/
def viral_reads_out (rows : List HitRow) (reads : List FastqRecord) :
    List FastqRecord :=
  reads.filter (fun r => decide (firstToken r.title ∈ viral_ids rows))

/-- The undetermined output stream of `cleaning_up`: records whose first title
token is *not* in `viral_ids` (`if title.split()[0] not in viral_ids`). -/
def undetermined_reads_out (rows : List HitRow) (reads : List FastqRecord) :
    List FastqRecord :=
  reads.filter (fun r => decide (firstToken r.title ∉ viral_ids rows))

/-- C3: `cleaning_up` writes every record of the final residual read set to
exactly one of the viral and undetermined streams, and the two counts sum to
the input record count. -/
theorem cleaning_up_partition (rows : List HitRow) (reads : List FastqRecord) :
    (viral_reads_out rows reads).length
      + (undetermined_reads_out rows reads).length = reads.length
    ∧ (∀ r ∈ reads,
        r ∈ viral_reads_out rows reads ∨ r ∈ undetermined_reads_out rows reads)
    ∧ (∀ r : FastqRecord,
        ¬(r ∈ viral_reads_out rows reads ∧ r ∈ undetermined_reads_out rows reads)) := by
  refine ⟨?_, ?_, ?_⟩
  · have hre : undetermined_reads_out rows reads
        = reads.filter (fun r =>
            !(decide (firstToken r.title ∈ viral_ids rows))) := by
      unfold undetermined_reads_out
      apply List.filter_congr
      intro r _
      simp
    rw [hre]
    exact length_filter_add_length_filter_not _ reads
  · intro r hr
    by_cases h : firstToken r.title ∈ viral_ids rows
    · exact Or.inl (List.mem_filter.mpr ⟨hr, by simpa using h⟩)
    · exact Or.inr (List.mem_filter.mpr ⟨hr, by simpa using h⟩)
  · rintro r ⟨hv, hu⟩
    have h1 := (List.mem_filter.mp hv).2
    have h2 := (List.mem_filter.mp hu).2
    simp only [decide_eq_true_eq] at h1 h2
    exact h2 h1

/-- C4: `viral_blast` and `cleaning_up` filter by the same thresholds; a read
whose (unique) retained hit is in the merged table is classified viral iff
that hit's identity and coverage strictly exceed 75.0 each; a read absent
from the merged table always lands in the undetermined stream. -/
theorem classification_thresholds (rows : List HitRow) (reads : List FastqRecord)
    (rd : FastqRecord) (r : HitRow)
    (hrd : rd ∈ reads) (hnd : (rows.map HitRow.qseqid).Nodup)
    (hr : r ∈ rows) (hid : r.qseqid = firstToken rd.title) :
    (∀ s : HitRow, viralBlastGood s = cleaningUpGood s)
    ∧ (rd ∈ viral_reads_out rows reads
        ↔ (blast_ident_threshold < r.pident ∧ blast_cov_threshold < r.qcovs))
    ∧ (∀ rd' ∈ reads, (∀ s ∈ rows, s.qseqid ≠ firstToken rd'.title) →
        rd' ∈ undetermined_reads_out rows reads) := by
  refine ⟨?_, ?_, ?_⟩
  · intro s
    unfold viralBlastGood cleaningUpGood
    exact Bool.and_comm _ _
  · constructor
    · intro hmem
      have h := (List.mem_filter.mp hmem).2
      simp only [decide_eq_true_eq, viral_ids, List.mem_toFinset,
        List.mem_map, List.mem_filter] at h
      obtain ⟨s, ⟨hsrows, hsgood⟩, hsid⟩ := h
      have hseq : s = r := List.inj_on_of_nodup_map hnd hsrows hr
        (by rw [hsid, hid])
      subst hseq
      simpa [cleaningUpGood, and_comm] using hsgood
    · intro ⟨hpid, hcov⟩
      refine List.mem_filter.mpr ⟨hrd, ?_⟩
      simp only [decide_eq_true_eq, viral_ids, List.mem_toFinset,
        List.mem_map, List.mem_filter]
      exact ⟨r, ⟨hr, by simp [cleaningUpGood, hpid, hcov]⟩, hid⟩
  · intro rd' hrd' habsent
    refine List.mem_filter.mpr ⟨hrd', ?_⟩
    simp only [decide_eq_true_eq, viral_ids, List.mem_toFinset,
      List.mem_map, List.mem_filter]
    rintro ⟨s, ⟨hsrows, -⟩, hsid⟩
    exact habsent s hsrows hsid

/-- Witness for `classification_thresholds`: a one-row table and a matching
read, classified viral at identity 90 and coverage 90. -/
theorem classification_thresholds_witness :
    ⟨"readA pair=1", "ACGT", "IIII"⟩
      ∈ viral_reads_out [mkHit "readA" "virA" 90 90 200]
        [⟨"readA pair=1", "ACGT", "IIII"⟩] :=
  (classification_thresholds [mkHit "readA" "virA" 90 90 200]
    [⟨"readA pair=1", "ACGT", "IIII"⟩] ⟨"readA pair=1", "ACGT", "IIII"⟩
    (mkHit "readA" "virA" 90 90 200)
    (by decide) (by decide) (by decide) (by decide)).2.1.mpr
    ⟨by norm_num [blast_ident_threshold, mkHit],
     by norm_num [blast_cov_threshold, mkHit]⟩

/-- The decontamination loop of `main`: one `victor` round per contaminant
reference, each round's residual output (`decont_reads`) becoming the next
round's input (`cont_reads`).  Each reference is represented by the mapped
identifier set its alignment yields. -/
def victorChain (reads : List FastqRecord) (maps : List (Finset String)) :
    List FastqRecord :=
  maps.foldl (fun rs m => victor m rs) reads

/-- The union of the mapped identifier sets of all rounds. -/
def unionAll (maps : List (Finset String)) : Finset String :=
  maps.foldr (· ∪ ·) ∅

theorem mem_unionAll {x : String} {maps : List (Finset String)} :
    x ∈ unionAll maps ↔ ∃ m ∈ maps, x ∈ m := by
  induction maps with
  | nil => simp [unionAll]
  | cons m ms ih => simp [unionAll, List.foldr_cons, Finset.mem_union, ih.symm]

/-- The chained rounds amount to filtering by "escapes every round's mapped
set". -/
theorem victorChain_filter (maps : List (Finset String)) :
    ∀ reads : List FastqRecord,
    victorChain reads maps
      = reads.filter (fun r => decide (∀ m ∈ maps, firstToken r.title ∉ m)) := by
  induction maps with
  | nil =>
      intro reads
      unfold victorChain
      simp
  | cons m ms ih =>
      intro reads
      have hstep : victorChain reads (m :: ms) = victorChain (victor m reads) ms := rfl
      rw [hstep, ih (victor m reads)]
      unfold victor
      rw [List.filter_filter]
      apply List.filter_congr
      intro r _
      rw [Bool.eq_iff_iff]
      simp only [Bool.and_eq_true, decide_eq_true_eq, List.mem_cons]
      constructor
      · rintro ⟨hms, hm⟩ m' (rfl | hm')
        · exact hm
        · exact hms m' hm'
      · intro h
        exact ⟨fun m' hm' => h m' (Or.inr hm'), h m (Or.inl rfl)⟩

/-- C5: chaining decontamination rounds over an ordered list of references
equals a single elimination against the union of all rounds' mapped
identifier sets; in particular the final residual set does not depend on the
order of the references. -/
theorem victor_chain_union (reads : List FastqRecord)
    (maps maps' : List (Finset String)) (hperm : maps.Perm maps') :
    victorChain reads maps = victor (unionAll maps) reads
    ∧ victorChain reads maps = victorChain reads maps' := by
  constructor
  · rw [victorChain_filter maps reads]
    unfold victor
    apply List.filter_congr
    intro r _
    simp only [decide_eq_decide, mem_unionAll]
    push_neg
    rfl
  · rw [victorChain_filter maps reads, victorChain_filter maps' reads]
    apply List.filter_congr
    intro r _
    simp only [decide_eq_decide]
    constructor
    · intro h m hm
      exact h m (hperm.mem_iff.mpr hm)
    · intro h m hm
      exact h m (hperm.mem_iff.mp hm)

/-- Witness for `victor_chain_union`: two references in both orders on a
three-read set. -/
theorem victor_chain_union_witness :
    victorChain [⟨"r1", "A", "I"⟩, ⟨"r2", "C", "I"⟩, ⟨"r3", "G", "I"⟩]
        [{"r1"}, {"r2"}]
      = victor (unionAll [{"r1"}, {"r2"}])
        [⟨"r1", "A", "I"⟩, ⟨"r2", "C", "I"⟩, ⟨"r3", "G", "I"⟩]
    ∧ victorChain [⟨"r1", "A", "I"⟩, ⟨"r2", "C", "I"⟩, ⟨"r3", "G", "I"⟩]
        [{"r1"}, {"r2"}]
      = victorChain [⟨"r1", "A", "I"⟩, ⟨"r2", "C", "I"⟩, ⟨"r3", "G", "I"⟩]
        [{"r2"}, {"r1"}] :=
  victor_chain_union [⟨"r1", "A", "I"⟩, ⟨"r2", "C", "I"⟩, ⟨"r3", "G", "I"⟩]
    [{"r1"}, {"r2"}] [{"r2"}, {"r1"}] (List.Perm.swap _ _ _)

/-- `n_proc = min(os.cpu_count(), 16)` in `hunter`. -/
def n_proc_hunter (cpu : ℕ) : ℕ := min cpu 16

/-- `max_reads_per_file = int(n_reads / n_proc) + 1` in `hunter`, computed from
the *raw* read count `n_reads`, not from the post-trimming count. -/
def max_reads_per_file (n_reads n_proc : ℕ) : ℕ := n_reads / n_proc + 1

/-- Consecutive chunking with fuel (structural recursion; the fuel is the list
length at the top call, enough whenever `0 < k`). -/
def chunkAux {α : Type} (k : ℕ) : ℕ → List α → List (List α)
  | _, [] => []
  | 0, l => [l]
  | fuel + 1, l => l.take k :: chunkAux k fuel (l.drop k)

/-- `split -l (4*k)` on a well-formed FASTQ at record granularity (likewise the
awk sequence splitter of `viral_blast`): consecutive chunks of at most `k`
records, in order, the last possibly shorter. -/
def chunkList {α : Type} (k : ℕ) (l : List α) : List (List α) :=
  chunkAux k l.length l

theorem chunkAux_flatten {α : Type} (k : ℕ) (hk : 0 < k) :
    ∀ (fuel : ℕ) (l : List α), l.length ≤ fuel →
      (chunkAux k fuel l).flatten = l := by
  intro fuel
  induction fuel with
  | zero =>
      intro l hl
      have : l = [] := List.eq_nil_of_length_eq_zero (Nat.le_zero.mp hl)
      subst this
      rfl
  | succ fuel ih =>
      intro l hl
      cases l with
      | nil => rfl
      | cons a l' =>
          have hdrop : ((a :: l').drop k).length ≤ fuel := by
            have h1 : ((a :: l').drop k).length = (a :: l').length - k :=
              List.length_drop _ _
            have h2 : (a :: l').length = l'.length + 1 := List.length_cons a l'
            omega
          simp only [chunkAux, List.flatten_cons, ih _ hdrop,
            List.take_append_drop]

theorem chunkAux_size {α : Type} (k : ℕ) (hk : 0 < k) :
    ∀ (fuel : ℕ) (l : List α), l.length ≤ fuel →
      ∀ c ∈ chunkAux k fuel l, c.length ≤ k := by
  intro fuel
  induction fuel with
  | zero =>
      intro l hl c hc
      have : l = [] := List.eq_nil_of_length_eq_zero (Nat.le_zero.mp hl)
      subst this
      simp [chunkAux] at hc
  | succ fuel ih =>
      intro l hl c hc
      cases l with
      | nil => simp [chunkAux] at hc
      | cons a l' =>
          simp only [chunkAux, List.mem_cons] at hc
          rcases hc with rfl | hc
          · exact List.length_take_le k (a :: l')
          · refine ih _ ?_ c hc
            have h1 : ((a :: l').drop k).length = (a :: l').length - k :=
              List.length_drop _ _
            have h2 : (a :: l').length = l'.length + 1 := List.length_cons a l'
            omega

theorem chunkAux_count {α : Type} (k : ℕ) (hk : 0 < k) :
    ∀ (fuel : ℕ) (l : List α), l.length ≤ fuel →
      (chunkAux k fuel l).length = (l.length + k - 1) / k := by
  intro fuel
  induction fuel with
  | zero =>
      intro l hl
      have : l = [] := List.eq_nil_of_length_eq_zero (Nat.le_zero.mp hl)
      subst this
      simp [chunkAux, Nat.div_eq_of_lt (by omega : k - 1 < k)]
  | succ fuel ih =>
      intro l hl
      cases l with
      | nil => simp [chunkAux, Nat.div_eq_of_lt (by omega : k - 1 < k)]
      | cons a l' =>
          have hdrop : ((a :: l').drop k).length ≤ fuel := by
            have h1 : ((a :: l').drop k).length = (a :: l').length - k :=
              List.length_drop _ _
            have h2 : (a :: l').length = l'.length + 1 := List.length_cons a l'
            omega
          simp only [chunkAux, List.length_cons, ih _ hdrop, List.length_drop]
          set n := l'.length + 1 with hn
          rcases le_or_lt k n with hkn | hkn
          · have e1 : n + k - 1 = ((n - k) + k - 1) + k := by omega
            rw [e1, Nat.add_div_right _ hk]
          · have e2 : n - k = 0 := by omega
            have e4 : n + k - 1 = (n - 1) + k := by omega
            rw [e2, e4, Nat.add_div_right _ hk,
              Nat.div_eq_of_lt (by omega : 0 + k - 1 < k),
              Nat.div_eq_of_lt (by omega : n - 1 < k)]

/-- `chunkList` with a positive chunk size: exact recombination, per-chunk
bound, and the chunk count is the ceiling of `length / k`. -/
theorem chunkList_spec {α : Type} (k : ℕ) (hk : 0 < k) (l : List α) :
    (chunkList k l).flatten = l
    ∧ (∀ c ∈ chunkList k l, c.length ≤ k)
    ∧ (chunkList k l).length = (l.length + k - 1) / k :=
  ⟨chunkAux_flatten k hk l.length l le_rfl,
   chunkAux_size k hk l.length l le_rfl,
   chunkAux_count k hk l.length l le_rfl⟩

/-- Ceiling division of `s` by `r / n + 1` stays below `n` when `s ≤ r`. -/
theorem shards_le_nproc (s r n : ℕ) (hn : 0 < n) (hs : s ≤ r) :
    (s + (r / n + 1) - 1) / (r / n + 1) ≤ n := by
  have hq : n * (r / n) + r % n = r := Nat.div_add_mod r n
  have hm : r % n < n := Nat.mod_lt _ hn
  generalize hqq : r / n = q at hq ⊢
  generalize hmm : r % n = m at hq hm
  have e1 : s + (q + 1) - 1 = s + q := by omega
  rw [e1, Nat.div_le_iff_le_mul_add_pred (Nat.succ_pos q)]
  have e5 : q + 1 - 1 = q := rfl
  have hexp : (q + 1) * n = n * q + n := by ring
  rw [e5, hexp]
  have hsq : s ≤ n * q + m := hq ▸ hs
  linarith

/-- C6 (amended): `hunter` targets `min(cpu, 16)` shards but splits the
surviving reads into consecutive chunks of `floor(raw / n_proc) + 1` records
(computed from the raw count); every surviving record lands in exactly one
shard, no shard exceeds that chunk size, and the number of shards is
`ceil(surviving / (floor(raw / n_proc) + 1))`, which is at most `n_proc`
when the surviving count does not exceed the raw count. -/
theorem hunter_sharding (cpu raw : ℕ) (surviving : List FastqRecord)
    (hcpu : 0 < cpu) (hsr : surviving.length ≤ raw) :
    (chunkList (max_reads_per_file raw (n_proc_hunter cpu)) surviving).flatten
      = surviving
    ∧ (∀ c ∈ chunkList (max_reads_per_file raw (n_proc_hunter cpu)) surviving,
        c.length ≤ max_reads_per_file raw (n_proc_hunter cpu))
    ∧ (chunkList (max_reads_per_file raw (n_proc_hunter cpu)) surviving).length
        = (surviving.length + max_reads_per_file raw (n_proc_hunter cpu) - 1)
          / max_reads_per_file raw (n_proc_hunter cpu)
    ∧ (chunkList (max_reads_per_file raw (n_proc_hunter cpu)) surviving).length
        ≤ n_proc_hunter cpu := by
  have hk : 0 < max_reads_per_file raw (n_proc_hunter cpu) := Nat.succ_pos _
  obtain ⟨h1, h2, h3⟩ :=
    chunkList_spec (max_reads_per_file raw (n_proc_hunter cpu)) hk surviving
  refine ⟨h1, h2, h3, ?_⟩
  rw [h3]
  have hnp : 0 < n_proc_hunter cpu := lt_min hcpu (by norm_num)
  exact shards_le_nproc surviving.length raw (n_proc_hunter cpu) hnp hsr

/-- Eight distinct surviving records used in concrete sharding runs. -/
def eightReads : List FastqRecord :=
  [⟨"s1", "A", "I"⟩, ⟨"s2", "A", "I"⟩, ⟨"s3", "A", "I"⟩, ⟨"s4", "A", "I"⟩,
   ⟨"s5", "A", "I"⟩, ⟨"s6", "A", "I"⟩, ⟨"s7", "A", "I"⟩, ⟨"s8", "A", "I"⟩]

/-- C6 (counterexample): on 4 cpus with 100 raw reads of which 8 survive
trimming, the chunk size is `100 / 4 + 1 = 26`, a single shard holds all 8
records — exceeding the claimed bound `ceil(8 / 4) = 2` — and the shard count
is 1, not `min(4, 16) = 4`. -/
theorem hunter_sharding_counterexample :
    n_proc_hunter 4 = 4
    ∧ max_reads_per_file 100 (n_proc_hunter 4) = 26
    ∧ (chunkList (max_reads_per_file 100 (n_proc_hunter 4)) eightReads).map
        List.length = [8]
    ∧ ¬ (∀ c ∈ chunkList (max_reads_per_file 100 (n_proc_hunter 4)) eightReads,
        c.length ≤ (8 + n_proc_hunter 4 - 1) / n_proc_hunter 4)
    ∧ (chunkList (max_reads_per_file 100 (n_proc_hunter 4)) eightReads).length
        ≠ n_proc_hunter 4 := by
  decide

/-- The tail of `hunter` after parsing the prinseq log: the ledger lines it
writes (`low_entropy`, `low_quality`, then — unconditionally — the count of
reads in `good.fastq` as `passing_filter`) and whether the lost-reads warning
fires (`lost_reads = n_reads + low_ent + min_qual - long_reads;
if lost_reads > 0: warn`).  All counts are Python ints, hence ℤ. -/
def hunterTail (n_reads low_ent min_qual long_reads : ℤ) :
    List (String × ℤ) × Bool :=
  ([("low_entropy", low_ent), ("low_quality", min_qual),
    ("passing_filter", n_reads)],
   decide (n_reads + low_ent + min_qual - long_reads > 0))

/-- C7 (counterexample): with 5 reads passing, no low-entropy or low-quality
rejections, and 10 reads entering the filter, the three counts do not sum to
the entering count, yet `hunter` raises no lost-reads warning
(`lost_reads = -5` is not `> 0`). -/
theorem hunter_lost_warning_counterexample :
    (5 : ℤ) + 0 + 0 ≠ 10 ∧ (hunterTail 5 0 0 10).2 = false := by
  decide

/-- C7 (amended): the lost-reads warning fires iff
`passing + low_entropy + low_quality` strictly *exceeds* the count entering
the filter (never on a deficit); it is non-fatal and the ledger lines written
do not depend on the entering count or on whether the warning fired. -/
theorem hunter_lost_warning (n e q L L' : ℤ) :
    ((hunterTail n e q L).2 = true ↔ L < n + e + q)
    ∧ (hunterTail n e q L).1 = (hunterTail n e q L').1 := by
  constructor
  · simp only [hunterTail, decide_eq_true_eq]
    omega
  · rfl

/-- Witness for `hunter_lost_warning` at a concrete excess. -/
theorem hunter_lost_warning_witness :
    ((hunterTail 8 1 2 10).2 = true ↔ (10 : ℤ) < 8 + 1 + 2)
    ∧ (hunterTail 8 1 2 10).1 = (hunterTail 8 1 2 99).1 :=
  hunter_lost_warning 8 1 2 10 99

/-- The per-sample `stats.tsv` ledger across the pipeline: `hunter` writes
`raw_reads`, `trimmed_too_short` (`= raw - surviving`), `low_entropy`,
`low_quality`, `passing_filter`; each `victor` round appends
`matching_<db>` (the mapped-set cardinality); `viral_blast` appends
`reads_to_blast`, `viral_reads` (the merged rows passing the filter) and
`undetermined_reads` (`= reads_to_blast - viral_reads`).  Values are ℤ as
Python ints. -/
def stats_tsv (raw long low_ent min_qual passing : ℕ)
    (mappedSets : List (String × Finset String))
    (tot : ℕ) (merged : List HitRow) : List (String × ℤ) :=
  [("raw_reads", (raw : ℤ)), ("trimmed_too_short", (raw : ℤ) - long),
   ("low_entropy", (low_ent : ℤ)), ("low_quality", (min_qual : ℤ)),
   ("passing_filter", (passing : ℤ))]
  ++ mappedSets.map (fun p => ("matching_" ++ p.1, (p.2.card : ℤ)))
  ++ [("reads_to_blast", (tot : ℤ)),
      ("viral_reads", ((good_hits merged).length : ℤ)),
      ("undetermined_reads", (tot : ℤ) - (good_hits merged).length)]

/-- C8: every count in the per-sample ledger is non-negative, given the
collaborator contracts — trimming only removes reads (`long ≤ raw`) and the
merged hit table has at most one row per query identifier, each of which is
an identifier of one of the `reads_to_blast` queried sequences. -/
theorem stats_tsv_nonneg (raw long low_ent min_qual passing tot : ℕ)
    (mappedSets : List (String × Finset String)) (merged : List HitRow)
    (ids : List String)
    (hlong : long ≤ raw)
    (hnd : (merged.map HitRow.qseqid).Nodup)
    (hids : ∀ x ∈ merged.map HitRow.qseqid, x ∈ ids)
    (htot : ids.length = tot) :
    ∀ p ∈ stats_tsv raw long low_ent min_qual passing mappedSets tot merged,
      0 ≤ p.2 := by
  have hviral : (good_hits merged).length ≤ tot := by
    have h1 : (good_hits merged).length ≤ merged.length :=
      List.length_filter_le _ _
    have h2 : merged.length = (merged.map HitRow.qseqid).length :=
      (List.length_map _ _).symm
    have h3 : (merged.map HitRow.qseqid).length ≤ ids.length :=
      (List.subperm_of_subset hnd hids).length_le
    omega
  intro p hp
  simp only [stats_tsv, List.mem_append, List.mem_cons, List.mem_map,
    List.not_mem_nil, or_false] at hp
  rcases hp with ((rfl | rfl | rfl | rfl | rfl) | ⟨a, -, rfl⟩) |
    (rfl | rfl | rfl)
  · exact Int.natCast_nonneg raw
  · simp only
    omega
  · exact Int.natCast_nonneg low_ent
  · exact Int.natCast_nonneg min_qual
  · exact Int.natCast_nonneg passing
  · exact Int.natCast_nonneg _
  · exact Int.natCast_nonneg tot
  · exact Int.natCast_nonneg _
  · simp only
    omega

/-- Witness for `stats_tsv_nonneg` on one concrete run of the ledger: the
`undetermined_reads` entry (5 queried reads, 1 viral) is non-negative. -/
theorem stats_tsv_nonneg_witness :
    0 ≤ (("undetermined_reads", (4 : ℤ)) : String × ℤ).2 :=
  stats_tsv_nonneg 10 8 1 1 6 5 [("humanGRCh38", {"r1"})]
    [mkHit "q1" "virA" 90 90 200] ["q1", "q2", "q3", "q4", "q5"]
    (by decide) (by decide) (by decide) (by decide)
    ("undetermined_reads", 4) (by decide)

/-- `n_proc = min(os.cpu_count(), 12)` in `main` before the blast loop. -/
def n_proc_blast (cpu : ℕ) : ℕ := min cpu 12

/-- `max_n` in `viral_blast`: Python 3's `(tot_seqs / n_proc) + 1` is float
division, and the `%d` formatting into the awk program truncates it, so the
awk splitter starts a new `splitted_clean_<i>.fasta` every
`floor(tot_seqs / n_proc) + 1` sequences. -/
def max_n (tot n_proc : ℕ) : ℕ := tot / n_proc + 1

/-- The shard files the awk splitter writes, in order: consecutive chunks of
`max_n` sequences; `splitted_clean_i.fasta` (and hence `tmp_i.tsv`) exists
iff `i` is below the number of chunks. -/
def awkShards {α : Type} (seqs : List α) (n_proc : ℕ) : List (List α) :=
  chunkList (max_n seqs.length n_proc) seqs

/-- C9: the search and merge loops of `viral_blast` open
`splitted_clean_i.fasta` and `tmp_i.tsv` for every `i < n_proc`, so all the
opens succeed iff the awk split produced exactly `n_proc` files, i.e. iff
`ceil(tot_seqs / (floor(tot_seqs / n_proc) + 1)) = n_proc`; the file count
never exceeds `n_proc`, and when `tot_seqs < n_proc` it equals `tot_seqs`,
so the stage then fails on a missing file. -/
theorem viral_blast_shard_files (seqs : List String) (n_proc : ℕ)
    (hn : 0 < n_proc) :
    ((∀ i < n_proc, i < (awkShards seqs n_proc).length)
      ↔ (awkShards seqs n_proc).length = n_proc)
    ∧ (awkShards seqs n_proc).length
        = (seqs.length + max_n seqs.length n_proc - 1) / max_n seqs.length n_proc
    ∧ (awkShards seqs n_proc).length ≤ n_proc
    ∧ (seqs.length < n_proc → (awkShards seqs n_proc).length = seqs.length) := by
  have hk : 0 < max_n seqs.length n_proc := Nat.succ_pos _
  obtain ⟨-, -, hcount⟩ := chunkList_spec (max_n seqs.length n_proc) hk seqs
  have hle : (awkShards seqs n_proc).length ≤ n_proc := by
    rw [awkShards, hcount]
    exact shards_le_nproc seqs.length seqs.length n_proc hn le_rfl
  refine ⟨⟨fun h => ?_, fun h i hi => by omega⟩, hcount, hle, fun hlt => ?_⟩
  · have := h (n_proc - 1) (by omega)
    omega
  · rw [awkShards, hcount, max_n, Nat.div_eq_of_lt hlt]
    simp

/-- Witness for `viral_blast_shard_files`: 4 sequences on 2 processors give
`max_n = 3` and exactly 2 shard files, so the last shard file exists. -/
theorem viral_blast_shard_files_witness :
    1 < (awkShards ["s1", "s2", "s3", "s4"] 2).length :=
  (viral_blast_shard_files ["s1", "s2", "s3", "s4"] 2 (by decide)).1.mpr
    (by decide) 1 (by decide)

/-- The two good-hit filters select the same rows. -/
theorem good_hits_eq_cleaningUpGood (merged : List HitRow) :
    good_hits merged = merged.filter cleaningUpGood := by
  unfold good_hits
  apply List.filter_congr
  intro r _
  unfold viralBlastGood cleaningUpGood
  exact Bool.and_comm _ _

/-- C10: when the merged hit table has at most one row per query identifier
and each of those identifiers names a record of the final residual read set
(whose identifiers are unique, per the read-set invariant), the `viral_reads`
count `viral_blast` writes to the ledger equals the number of records
`cleaning_up` writes to the viral stream, and the identifier set of that
stream is exactly the identifier set of the filtered merged rows. -/
theorem viral_counts_agree (merged : List HitRow) (reads : List FastqRecord)
    (hnd : (merged.map HitRow.qseqid).Nodup)
    (hsub : ∀ r ∈ merged, r.qseqid ∈ readIds reads)
    (hreads : (readIds reads).Nodup) :
    (good_hits merged).length = (viral_reads_out merged reads).length
    ∧ (readIds (viral_reads_out merged reads)).toFinset
        = ((good_hits merged).map HitRow.qseqid).toFinset := by
  have hidssub : viral_ids merged ⊆ (readIds reads).toFinset := by
    intro x hx
    simp only [viral_ids, List.mem_toFinset, List.mem_map,
      List.mem_filter] at hx
    obtain ⟨r, ⟨hr, -⟩, rfl⟩ := hx
    exact List.mem_toFinset.mpr (hsub r hr)
  have hcount : (viral_reads_out merged reads).length = (viral_ids merged).card := by
    unfold viral_reads_out
    exact length_filter_map_mem
      (f := fun r : FastqRecord => firstToken r.title) hreads hidssub
  have hsubl : List.Sublist ((merged.filter cleaningUpGood).map HitRow.qseqid)
      (merged.map HitRow.qseqid) :=
    (List.filter_sublist merged).map HitRow.qseqid
  have hgoodnd : ((merged.filter cleaningUpGood).map HitRow.qseqid).Nodup :=
    hnd.sublist hsubl
  have hcard : (viral_ids merged).card = (good_hits merged).length := by
    unfold viral_ids
    rw [List.toFinset_card_of_nodup hgoodnd, List.length_map,
      good_hits_eq_cleaningUpGood]
  constructor
  · rw [hcount, hcard]
  · ext x
    simp only [readIds, viral_reads_out, List.mem_toFinset, List.mem_map,
      List.mem_filter, decide_eq_true_eq, good_hits_eq_cleaningUpGood]
    constructor
    · rintro ⟨r, ⟨-, hmem⟩, rfl⟩
      simpa [viral_ids] using hmem
    · intro hx
      obtain ⟨r, hr, hrid⟩ : ∃ r ∈ merged.filter cleaningUpGood, r.qseqid = x := by
        simpa using hx
      have hxin : x ∈ viral_ids merged := by
        simp only [viral_ids, List.mem_toFinset, List.mem_map]
        exact ⟨r, hr, hrid⟩
      have hread : x ∈ readIds reads := List.mem_toFinset.mp (hidssub hxin)
      obtain ⟨rd, hrd, hrdid⟩ : ∃ rd ∈ reads, firstToken rd.title = x := by
        simpa [readIds] using hread
      exact ⟨rd, ⟨hrd, by rw [hrdid]; exact hxin⟩, hrdid⟩

/-- Witness for `viral_counts_agree`: a two-row merged table over a two-read
residual set, one row passing the thresholds. -/
theorem viral_counts_agree_witness :
    (good_hits [mkHit "q1" "virA" 90 90 200, mkHit "q2" "virB" 50 50 80]).length
      = (viral_reads_out [mkHit "q1" "virA" 90 90 200, mkHit "q2" "virB" 50 50 80]
          [⟨"q1 desc", "ACGT", "IIII"⟩, ⟨"q2 desc", "CCCC", "IIII"⟩]).length
    ∧ (readIds (viral_reads_out
          [mkHit "q1" "virA" 90 90 200, mkHit "q2" "virB" 50 50 80]
          [⟨"q1 desc", "ACGT", "IIII"⟩, ⟨"q2 desc", "CCCC", "IIII"⟩])).toFinset
        = ((good_hits [mkHit "q1" "virA" 90 90 200,
            mkHit "q2" "virB" 50 50 80]).map HitRow.qseqid).toFinset :=
  viral_counts_agree [mkHit "q1" "virA" 90 90 200, mkHit "q2" "virB" 50 50 80]
    [⟨"q1 desc", "ACGT", "IIII"⟩, ⟨"q2 desc", "CCCC", "IIII"⟩]
    (by decide) (by decide) (by decide)

/-- Witness for `hunter_sharding`: 4 cpus, 100 raw reads, 8 surviving. -/
theorem hunter_sharding_witness :
    (chunkList (max_reads_per_file 100 (n_proc_hunter 4)) eightReads).flatten
      = eightReads
    ∧ (∀ c ∈ chunkList (max_reads_per_file 100 (n_proc_hunter 4)) eightReads,
        c.length ≤ max_reads_per_file 100 (n_proc_hunter 4))
    ∧ (chunkList (max_reads_per_file 100 (n_proc_hunter 4)) eightReads).length
        = (eightReads.length + max_reads_per_file 100 (n_proc_hunter 4) - 1)
          / max_reads_per_file 100 (n_proc_hunter 4)
    ∧ (chunkList (max_reads_per_file 100 (n_proc_hunter 4)) eightReads).length
        ≤ n_proc_hunter 4 :=
  hunter_sharding 4 100 eightReads (by decide) (by decide)
